import Mathlib

/-!
Verification of the JSON-LD processor against its specification.

Each section shallowly embeds one part of the source tree:

* `Container` and `ContainerType` embed `src/src/syntax/container.rs`.
* `ProcessingStack`, `processList`, `derefFuel`, `processContext`,
  `simpleDefine`, `defineCommit` embed `src/src/context/processing.rs`
  (context processing, term definition creation, the remote-context stack).
* `lcoGet` and `mergedIter` embed the `LocalContextObject` merge view of
  `src/src/context/processing.rs`.
* `Props` embeds `src/core/src/object/node/properties.rs`.
* `Lexicon` embeds `src/src/vocab.rs`.
* `expand_literal` embeds `src/expansion/src/literal.rs`.

Machine integers do not occur in the verified code paths; strings stand for
IRIs and JSON strings. External collaborators (the `iref` IRI library, the
remote-document loader) are modelled where noted, from the specification.
-/

namespace JsonLdSpec

/-! ## Containers (src/src/syntax/container.rs) -/

/-- Container type, from `ContainerType` in `src/src/syntax/container.rs`. -/
inductive ContainerType where
  | graph
  | id
  | index
  | language
  | list
  | set
  | type
  deriving DecidableEq

/-- Container, from `Container` in `src/src/syntax/container.rs`:
the empty container, the seven singletons and the valid combinations. -/
inductive Container where
  | none
  | graph
  | id
  | index
  | language
  | list
  | set
  | type
  | graphSet
  | graphId
  | graphIndex
  | idSet
  | indexSet
  | languageSet
  | setType
  | graphIdSet
  | graphIndexSet
  deriving DecidableEq

/-- From `impl From<ContainerType> for Container`. -/
def ContainerType.intoContainer : ContainerType → Container
  | .graph => .graph
  | .id => .id
  | .index => .index
  | .language => .language
  | .list => .list
  | .set => .set
  | .type => .type

/-- From `Container::as_slice`. -/
def Container.asSlice : Container → List ContainerType
  | .none => []
  | .graph => [.graph]
  | .id => [.id]
  | .index => [.index]
  | .language => [.language]
  | .list => [.list]
  | .set => [.set]
  | .type => [.type]
  | .graphSet => [.graph, .set]
  | .graphId => [.graph, .id]
  | .graphIndex => [.graph, .index]
  | .idSet => [.id, .set]
  | .indexSet => [.index, .set]
  | .languageSet => [.language, .set]
  | .setType => [.type, .set]
  | .graphIdSet => [.graph, .id, .set]
  | .graphIndexSet => [.graph, .index, .set]

/-- From `Container::contains`. -/
def Container.mem (c : Container) (t : ContainerType) : Bool :=
  c.asSlice.contains t

/-- From `Container::with`: the match table at
`src/src/syntax/container.rs` lines 173 to 227, arm by arm. -/
def Container.with' : Container → ContainerType → Option Container
  | .none, c => some c.intoContainer
  | .graph, .graph => some .graph
  | .graph, .set => some .graphSet
  | .graph, .id => some .graphId
  | .graph, .index => some .graphIndex
  | .id, .id => some .id
  | .id, .graph => some .graphId
  | .id, .set => some .idSet
  | .index, .index => some .index
  | .index, .graph => some .graphIndex
  | .index, .set => some .indexSet
  | .language, .language => some .language
  | .language, .set => some .languageSet
  | .list, .list => some .list
  | .set, .set => some .set
  | .set, .graph => some .graphSet
  | .set, .id => some .idSet
  | .set, .index => some .indexSet
  | .set, .language => some .languageSet
  | .set, .type => some .setType
  | .type, .type => some .type
  | .type, .set => some .setType
  | .graphSet, .graph => some .graphSet
  | .graphSet, .set => some .graphSet
  | .graphSet, .id => some .graphIdSet
  | .graphSet, .index => some .graphIdSet
  | .graphId, .graph => some .graphId
  | .graphId, .id => some .graphId
  | .graphId, .set => some .graphIdSet
  | .graphIndex, .graph => some .graphIndex
  | .graphIndex, .index => some .graphIndex
  | .graphIndex, .set => some .graphIndexSet
  | .idSet, .id => some .idSet
  | .idSet, .set => some .idSet
  | .idSet, .graph => some .graphIdSet
  | .indexSet, .index => some .indexSet
  | .indexSet, .set => some .indexSet
  | .indexSet, .graph => some .graphIndexSet
  | .languageSet, .language => some .languageSet
  | .languageSet, .set => some .languageSet
  | .setType, .set => some .setType
  | .setType, .type => some .setType
  | .graphIdSet, .graph => some .graphIdSet
  | .graphIdSet, .id => some .graphIdSet
  | .graphIdSet, .set => some .graphIdSet
  | .graphIndexSet, .graph => some .graphIndexSet
  | .graphIndexSet, .index => some .graphIndexSet
  | .graphIndexSet, .set => some .graphIndexSet
  | _, _ => Option.none

/-- From `Container::add`: returns whether the add succeeded together with
the resulting container (the source mutates in place). -/
def Container.add (c : Container) (t : ContainerType) : Bool × Container :=
  match c.with' t with
  | some c2 => (true, c2)
  | Option.none => (false, c)

/-- From `Container::from`: folds `add` over the list, failing on the first
rejected container type. -/
def Container.from' : List ContainerType → Container → Except ContainerType Container
  | [], c => .ok c
  | t :: rest, c =>
    match c.with' t with
    | some c2 => Container.from' rest c2
    | Option.none => .error t

/-- All inhabitants of `ContainerType`. -/
def allContainerTypes : List ContainerType :=
  [.graph, .id, .index, .language, .list, .set, .type]

/-- All inhabitants of `Container`. -/
def allContainers : List Container :=
  [.none, .graph, .id, .index, .language, .list, .set, .type,
   .graphSet, .graphId, .graphIndex, .idSet, .indexSet, .languageSet,
   .setType, .graphIdSet, .graphIndexSet]

/-- The legal element-set combinations, copied from the claim (and the
specification): `{}`, each singleton, `{graph,set}`, `{graph,id}`,
`{graph,index}`, `{id,set}`, `{index,set}`, `{language,set}`, `{set,type}`,
`{graph,id,set}`, `{graph,index,set}`. -/
def legalCombos : List (List ContainerType) :=
  [[],
   [.graph], [.id], [.index], [.language], [.list], [.set], [.type],
   [.graph, .set], [.graph, .id], [.graph, .index], [.id, .set],
   [.index, .set], [.language, .set], [.set, .type],
   [.graph, .id, .set], [.graph, .index, .set]]

/-- Whether two lists of container types have the same members. -/
def sameMembers (a b : List ContainerType) : Bool :=
  allContainerTypes.all fun t => a.contains t == b.contains t

/-- Whether a membership list is one of the legal combinations. -/
def isLegalCombo (a : List ContainerType) : Bool :=
  legalCombos.any fun l => sameMembers a l

/-! ## Lexicon (src/src/vocab.rs)

IRIs are modelled as strings. A vocabulary is a pair of functions
`fromIriV : String → Option V` and `asIriV : V → String`, the two methods
of the `Vocab` trait. -/

/-- From `Lexicon<V>` in `src/src/vocab.rs`: an identifier from the known
vocabulary, or any other IRI outside of the vocabulary. -/
inductive Lexicon (V : Type) where
  | id (v : V)
  | iri (s : String)
  deriving DecidableEq

/-- From `impl Id for Lexicon<V>`, `from_iri` at `src/src/vocab.rs`
lines 143 to 152. -/
def Lexicon.fromIri {V : Type} (fromIriV : String → Option V) (i : String) :
    Lexicon V :=
  match fromIriV i with
  | some v => .id v
  | Option.none => .iri i

/-- From `impl AsIri for Lexicon<V>`, `as_iri` at `src/src/vocab.rs`
lines 133 to 141. -/
def Lexicon.asIri {V : Type} (asIriV : V → String) : Lexicon V → String
  | .id v => asIriV v
  | .iri s => s

/-! ## Node properties (src/core/src/object/node/properties.rs)

An indexed object is modelled by its content together with the `@index`
wrapper and the source metadata. `Properties` is a map from property names
to multisets of indexed objects; the `HashMap` is modelled as an
association list with unique keys and the `Multiset` as a list whose
`insert` appends (both types live outside the given sources). -/

/-- An indexed object with source metadata, standing for
`Meta<Indexed<Object>>`. -/
structure Obj where
  content : Nat
  index : Option String
  meta : Nat
  deriving DecidableEq

/-- Modelled from the spec: object equivalence ignores the `@index` wrapper
and the source metadata (the `equivalent` operator of the core object
model, whose implementation is outside the given sources). -/
def Obj.equivalent (a b : Obj) : Bool :=
  a.content == b.content

/-- The properties multimap of a node object. -/
abbrev Props : Type := List (String × List Obj)

/-- Association-list lookup used by the map models. -/
def aget {V : Type} (o : List (String × V)) (key : String) : Option V :=
  (o.find? fun e => e.1 == key).map fun e => e.2

/-- Whether an association list holds the key. -/
def containsKey {V : Type} (o : List (String × V)) (key : String) : Bool :=
  o.any fun e => e.1 == key

/-- Rewrites the value of the first entry with the given key. -/
def updateFirst {V : Type} : List (String × V) → String → (V → V) → List (String × V)
  | [], _, _ => []
  | e :: rest, k, f =>
    if e.1 == k then (e.1, f e.2) :: rest else e :: updateFirst rest k f

/-- The objects associated with a property, from `Properties::get`. -/
def Props.get (p : Props) (prop : String) : List Obj :=
  (aget p prop).getD []

/-- From `Properties::insert` at `src/core/src/object/node/properties.rs`
lines 96 to 104: inserts into the multiset of the property
unconditionally, creating a singleton entry when absent. -/
def Props.insert (p : Props) (prop : String) (v : Obj) : Props :=
  if containsKey p prop then updateFirst p prop fun l => l ++ [v]
  else p ++ [(prop, [v])]

/-- From `Properties::insert_unique` at
`src/core/src/object/node/properties.rs` lines 106 to 120: inserts only
when no already associated object is equivalent to the new one. -/
def Props.insertUnique (p : Props) (prop : String) (v : Obj) : Props :=
  if containsKey p prop then
    updateFirst p prop fun l =>
      if l.all fun w => !(w.equivalent v) then l ++ [v] else l
  else p ++ [(prop, [v])]

/-! ## Literal value expansion (src/expansion/src/literal.rs) -/

/-- From `GivenLiteralValue` in `src/expansion/src/literal.rs`: a literal
taken directly from the JSON input (numbers keep their source text). -/
inductive GivenLiteralValue where
  | boolean (b : Bool)
  | number (n : String)
  | str (s : String)
  deriving DecidableEq

/-- From `GivenLiteralValue::is_string` at `src/expansion/src/literal.rs`
lines 29 to 31: the source matches on `Self::Number(_)`. -/
def GivenLiteralValue.isString : GivenLiteralValue → Bool
  | .number _ => true
  | _ => false

/-- From `GivenLiteralValue::as_str`. -/
def GivenLiteralValue.asStr : GivenLiteralValue → Option String
  | .str s => some s
  | _ => Option.none

/-- From `LiteralValue` in `src/expansion/src/literal.rs`. -/
inductive LiteralValue where
  | given (v : GivenLiteralValue)
  | inferred (s : String)
  deriving DecidableEq

/-- From `LiteralValue::is_string`. -/
def LiteralValue.isString : LiteralValue → Bool
  | .given v => v.isString
  | .inferred _ => true

/-- From `LiteralValue::as_str`. -/
def LiteralValue.asStr : LiteralValue → Option String
  | .given v => v.asStr
  | .inferred s => some s

/-- The type mapping of a term definition (`Type` in the core crate). -/
inductive TypeMapping where
  | id
  | vocab
  | json
  | none
  | ref (s : String)
  deriving DecidableEq

/-- Base direction, from `Direction` in `src/src/direction.rs`. -/
inductive Direction where
  | ltr
  | rtl
  deriving DecidableEq

/-- A literal, standing for `Literal` of the core object model (the two
string representations `Expanded` and `Inferred` are collapsed). -/
inductive Lit where
  | boolean (b : Bool)
  | number (n : String)
  | str (s : String)
  deriving DecidableEq

/-- The object produced by literal value expansion: a node object with an
optional id, a language-tagged string, or a literal with an optional
datatype. -/
inductive ExpandedObj where
  | node (id : Option String)
  | valueLangString (s : String) (language : Option String) (direction : Option Direction)
  | valueLiteral (lit : Lit) (typ : Option TypeMapping)
  | panicked
  deriving DecidableEq

/-- Whether the expanded object is a node object. -/
def ExpandedObj.isNode : ExpandedObj → Bool
  | .node _ => true
  | _ => false

/-- Modelled from the spec: IRI expansion of an absolute IRI with
`document_relative = true` returns the IRI itself (the `expand_iri` of
the expansion crate is outside the given sources; the verified claims
only apply it to absolute IRIs, which both `document_relative` and
`vocab` expansion leave unchanged). -/
def expandIriDocRel (s : String) : String := s

/-- From `expand_literal` at `src/expansion/src/literal.rs` lines 66 to
189. The active-context inputs are reduced to the data the function
reads: the type, language and direction mappings of the active property
definition and the context defaults. `LangString::new` (outside the
given sources) is modelled as succeeding exactly when a language or a
direction is present. The `unwrap` of `as_str` on a non-string is
modelled by `ExpandedObj.panicked`. -/
def expand_literal (typeMapping : Option TypeMapping)
    (langMapping : Option (Option String))
    (dirMapping : Option (Option Direction))
    (defaultLang : Option String) (defaultDir : Option Direction)
    (v : LiteralValue) : ExpandedObj :=
  if typeMapping == some .id && v.isString then
    match v.asStr with
    | some s => .node (some (expandIriDocRel s))
    | Option.none => .panicked
  else if typeMapping == some .vocab && v.isString then
    match v.asStr with
    | some s => .node (some (expandIriDocRel s))
    | Option.none => .panicked
  else
    let result : Lit :=
      match v with
      | .given (.boolean b) => .boolean b
      | .given (.number n) => .number n
      | .given (.str s) => .str s
      | .inferred s => .str s
    match typeMapping with
    | Option.none | some .id | some .vocab | some TypeMapping.none =>
      match result with
      | .str s =>
        let language := match langMapping with
          | some lm => lm
          | Option.none => defaultLang
        let direction := match dirMapping with
          | some dm => dm
          | Option.none => defaultDir
        if language.isSome || direction.isSome then
          .valueLangString s language direction
        else .valueLiteral (.str s) Option.none
      | other => .valueLiteral other Option.none
    | some t => .valueLiteral result (some t)

/-! ## Merged local context object (src/src/context/processing.rs, lines 22 to 127)

`LocalContextObject` keeps a vector of JSON objects, the imported object
first and the importing object last. JSON objects are modelled as
association lists. -/

/-- From `LocalContextObject::get` at lines 38 to 52: looks the key up in
the merged objects from last to first. -/
def lcoGet {V : Type} (objects : List (List (String × V))) (key : String) : Option V :=
  objects.reverse.findSome? fun o => aget o key

/-- Whether any of the objects holds the key. -/
def containsKeyAny {V : Type} (objs : List (List (String × V))) (k : String) : Bool :=
  objs.any fun o => containsKey o k

/-- From `MergedObjectIter::next` at lines 100 to 126: iterates the merged
objects first to last, skipping an entry when a later-merged object also
holds its key; when only one object is merged no check is made. The
index arithmetic `objects[(objects.len() - entries.len() + 1)..]`
amounts to the objects after the one being iterated. -/
def mergedIter {V : Type} (objects : List (List (String × V))) : List (String × V) :=
  if objects.length ≤ 1 then objects.flatten
  else (objects.enum.map fun p =>
    p.2.filter fun kv => !(containsKeyAny (objects.drop (p.1 + 1)) kv.1)).flatten

/-! ## Context processing (src/src/context/processing.rs)

The embedding keeps the control structure of `process_context` and
`define`: the remote-context stack, cycle detection, dereferencing
through a loader, the null reset, the `defined` map protocol and the
protected-term commit. JSON values inside a context definition are
modelled as null, boolean or string (`JsonV`); the `@version`, `@import`,
`@base`, `@vocab`, `@language` and `@direction` steps of the object
branch, and the prefix and vocabulary term-expansion paths of `define`,
are outside the verified claims and are not modelled. Recursion through
the loader is bounded by explicit fuel; a `Option.none` result means the
fuel ran out, and a theorem below shows enough fuel always exists. -/

/-- The fatal error codes of the processor. -/
inductive Err where
  | loadingDocumentFailed
  | loadingRemoteContextFailed
  | invalidRemoteContext
  | contextOverflow
  | invalidContextEntry
  | invalidContextNullification
  | invalidPropagateValue
  | invalidImportValue
  | invalidVersionValue
  | processingModeConflict
  | invalidBaseIri
  | invalidBaseDirection
  | invalidVocabMapping
  | invalidDefaultLanguage
  | invalidLocalContext
  | keywordRedefinition
  | invalidTermDefinition
  | invalidTypeMapping
  | invalidReverseProperty
  | invalidIriMapping
  | invalidKeywordAlias
  | invalidContainerMapping
  | invalidLanguageMapping
  | invalidNestValue
  | invalidPrefixValue
  | invalidProtectedValue
  | protectedTermRedefinition
  | invalidScopedContext
  | cyclicIriMapping
  deriving DecidableEq

/-- The JSON-LD processing mode. -/
inductive ProcessingMode where
  | jsonLd1_0
  | jsonLd1_1
  deriving DecidableEq

/-- The processing options `process_context` and `define` read. -/
structure Options where
  processingMode : ProcessingMode
  overrideProtected : Bool
  propagate : Bool
  deriving DecidableEq

/-- A JSON value inside a context definition (see the section comment). -/
inductive JsonV where
  | null
  | bool (b : Bool)
  | str (s : String)
  deriving DecidableEq

/-- One item of a local context sequence: null, a context reference, or a
context definition object. -/
inductive CtxItem where
  | null
  | str (s : String)
  | obj (entries : List (String × JsonV))
  deriving DecidableEq

/-- A local context as authored: a single item or an array of items. -/
inductive LocalCtx where
  | single (item : CtxItem)
  | array (items : List CtxItem)
  deriving DecidableEq

/-- From `as_array` (crate::util): a non-array value becomes a singleton. -/
def asArray : LocalCtx → List CtxItem
  | .single i => [i]
  | .array l => l

/-- A term definition of an active context (section 3 of the spec; the
per-term `TermDefinition` struct of the context module, whose definition
is outside the given sources). The scoped local context is not
modelled. -/
structure TermDefinition where
  value : Option String
  prefixFlag : Bool
  protectedFlag : Bool
  reverseProperty : Bool
  typ : Option TypeMapping
  language : Option (Option String)
  direction : Option (Option Direction)
  container : Container
  index : Option String
  nest : Option String
  deriving DecidableEq

/-- A fresh term definition with the given IRI mapping and protected
flag; all other fields at their defaults. -/
def mkSimpleDef (v : Option String) (p : Bool) : TermDefinition :=
  ⟨v, false, p, false, Option.none, Option.none, Option.none, Container.none,
   Option.none, Option.none⟩

/-- Modelled from the spec: two term definitions are equal modulo
protected iff all fields except the protected flag are equal (the
`PartialEq` of the source `TermDefinition` is outside the given
sources; the spec prescribes field-wise comparison excluding
`protected`). -/
def eqModProtected (a b : TermDefinition) : Bool :=
  a.value == b.value && a.prefixFlag == b.prefixFlag &&
  a.reverseProperty == b.reverseProperty && a.typ == b.typ &&
  a.language == b.language && a.direction == b.direction &&
  a.container == b.container && a.index == b.index && a.nest == b.nest

/-- The definition with its protected flag replaced. -/
def TermDefinition.setProtected (d : TermDefinition) (b : Bool) : TermDefinition :=
  ⟨d.value, d.prefixFlag, b, d.reverseProperty, d.typ, d.language, d.direction,
   d.container, d.index, d.nest⟩

/-- An active context: original base URL, ordered term definitions and the
optional previous context (base IRI, vocabulary mapping and language and
direction defaults are outside the verified claims). -/
inductive ActiveCtx where
  | mk (originalBase : Option String) (defs : List (String × TermDefinition))
      (previous : Option ActiveCtx)

/-- The original base URL of the context. -/
def ActiveCtx.originalBase : ActiveCtx → Option String
  | .mk b _ _ => b

/-- The term definitions of the context. -/
def ActiveCtx.defs : ActiveCtx → List (String × TermDefinition)
  | .mk _ d _ => d

/-- The previous context of the context. -/
def ActiveCtx.previous : ActiveCtx → Option ActiveCtx
  | .mk _ _ p => p

/-- The context with its previous context replaced. -/
def ActiveCtx.setPrevious : ActiveCtx → Option ActiveCtx → ActiveCtx
  | .mk b d _, p => .mk b d p

/-- From `C::new(original_base_url)`: a freshly initialized active context
carrying only the base URL. -/
def ActiveCtx.new (base : Option String) : ActiveCtx :=
  .mk base [] Option.none

/-- The term definition for a term, from `Context::get`. -/
def ActiveCtx.getDef (c : ActiveCtx) (term : String) : Option TermDefinition :=
  aget c.defs term

/-- From `Context::set`: replaces or removes the definition of a term. -/
def ActiveCtx.setDef : ActiveCtx → String → Option TermDefinition → ActiveCtx
  | .mk b d p, term, Option.none => .mk b (d.filter fun e => e.1 != term) p
  | .mk b d p, term, some td => .mk b ((d.filter fun e => e.1 != term) ++ [(term, td)]) p

/-- From `has_protected_items` at `src/src/context/processing.rs` lines
267 to 276. -/
def hasProtectedItems (c : ActiveCtx) : Bool :=
  c.defs.any fun e => e.2.protectedFlag

/-- The `defined` map of a processing invocation,
`HashMap<String, bool>` modelled as an association list with unique
keys. -/
abbrev DefinedMap : Type := List (String × Bool)

/-- HashMap insertion: replaces any previous binding of the key. -/
def insertd (m : DefinedMap) (t : String) (b : Bool) : DefinedMap :=
  (m.filter fun e => e.1 != t) ++ [(t, b)]

/-- The closed keyword set (section 3 of the spec). -/
def keywords : List String :=
  ["@context", "@id", "@type", "@value", "@language", "@direction", "@graph",
   "@list", "@set", "@index", "@container", "@vocab", "@base", "@reverse",
   "@nest", "@prefix", "@propagate", "@protected", "@import", "@version",
   "@included", "@json", "@none", "@any"]

/-- Modelled from the spec: whether a string is one of the closed keyword
set (`is_keyword` of the syntax module, outside the given sources). -/
def isKeyword (s : String) : Bool :=
  keywords.contains s

/-- Modelled from the spec: whether a string has the form of a keyword,
an `@` followed by one or more alphabetic characters (`is_keyword_like`
of the syntax module, outside the given sources). -/
def isKeywordLike (s : String) : Bool :=
  match s.data with
  | '@' :: rest => !rest.isEmpty && rest.all Char.isAlpha
  | _ => false

/-- From `contains_after_first` at `src/src/context/processing.rs` lines
833 to 839: the character occurs and its first occurrence is not at
position zero. -/
def containsAfterFirst (s : String) (c : Char) : Bool :=
  match s.data with
  | [] => false
  | h :: rest => h != c && rest.contains c

/-- Modelled from the spec: IRI reference resolution against a base (the
`iref` library and `resolve_iri` at lines 278 to 287). A reference
containing a colon is treated as absolute and kept; a relative reference
is appended to the base when one exists and fails otherwise. -/
def resolveIri (s : String) (base : Option String) : Option String :=
  match base with
  | some b => some (if s.data.contains ':' then s else b ++ s)
  | Option.none => if s.data.contains ':' then some s else Option.none

/-- The IRI mapping obtained from the `@id` entry of a term definition,
from the result match of `define` at lines 1161 to 1190: a keyword maps
to itself except `@context`, which is an invalid keyword alias; a value
with a colon after its first character is kept as an absolute IRI or
compact IRI; anything else fails with an invalid IRI mapping (the model
carries no vocabulary mapping and no prefix definitions, which the
verified claims do not exercise). -/
def expandIdValue (s : String) : Except Err String :=
  if isKeyword s then
    if s == "@context" then .error .invalidKeywordAlias else .ok s
  else if containsAfterFirst s ':' then .ok s
  else .error .invalidIriMapping

/-- From the tail of `define` at `src/src/context/processing.rs` lines
1601 to 1622: the protected-term redefinition check and the final
commit. If override protected is false and a protected previous
definition exists, the new definition must equal the previous modulo
protected and then inherits `protected = true`; otherwise the
definition is committed as built. The commit also sets the `defined`
entry of the term to true. -/
def defineCommit (ctx : ActiveCtx) (term : String) (definition : TermDefinition)
    (previous : Option TermDefinition) (overrideProtected : Bool)
    (defined : DefinedMap) : Except Err (ActiveCtx × DefinedMap) :=
  if !overrideProtected then
    match previous with
    | some prev =>
      if prev.protectedFlag then
        if eqModProtected definition prev then
          .ok (ctx.setDef term (some (definition.setProtected true)),
               insertd defined term true)
        else .error .protectedTermRedefinition
      else .ok (ctx.setDef term (some definition), insertd defined term true)
    | Option.none => .ok (ctx.setDef term (some definition), insertd defined term true)
  else .ok (ctx.setDef term (some definition), insertd defined term true)

/-- From `define` at `src/src/context/processing.rs` lines 855 to 1631,
restricted to the modelled value shapes: the `defined` map protocol
(lines 880 to 897), the keyword checks (lines 899 to 945), the removal
of the previous definition (line 949), the value lifting (lines 951 to
969), the `@id` mapping (lines 1136 to 1301, reduced to string values
and the colon fallback) and the protected commit. Validation of
`@container`, `@index`, scoped contexts, `@language`, `@direction`,
`@nest` and `@prefix` entries applies only to object-shaped values,
which the model does not contain. -/
def simpleDefine (ctx : ActiveCtx) (localCtx : List (String × JsonV))
    (protectedDefault : Bool) (opts : Options) (term : String)
    (defined : DefinedMap) : Except Err (ActiveCtx × DefinedMap) :=
  match aget defined term with
  | some true => .ok (ctx, defined)
  | some false => .error .cyclicIriMapping
  | Option.none =>
    if term == "" then .error .invalidTermDefinition
    else
      match aget localCtx term with
      | Option.none => .ok (ctx, defined)
      | some v =>
        let defined1 := insertd defined term false
        if term == "@type" then
          -- in 1.0 mode a keyword redefinition outright; in 1.1 mode the
          -- value must be a map holding only `@container: @set` or
          -- `@protected`, and no modelled value is a map
          .error .keywordRedefinition
        else if isKeyword term then .error .keywordRedefinition
        else if isKeywordLike term then .ok (ctx, defined1)
        else
          let previous := ctx.getDef term
          let ctx1 := ctx.setDef term Option.none
          match v with
          | .bool _ => .error .invalidTermDefinition
          | .null =>
            defineCommit ctx1 term (mkSimpleDef Option.none protectedDefault)
              previous opts.overrideProtected defined1
          | .str s =>
            if s == term then
              if containsAfterFirst term ':' then
                defineCommit ctx1 term (mkSimpleDef (some term) protectedDefault)
                  previous opts.overrideProtected defined1
              else .error .invalidIriMapping
            else if isKeywordLike s && !isKeyword s then .ok (ctx1, defined1)
            else
              match expandIdValue s with
              | .error e => .error e
              | .ok iri =>
                defineCommit ctx1 term (mkSimpleDef (some iri) protectedDefault)
                  previous opts.overrideProtected defined1

/-- The keys of a context definition that are not terms, from the match
at `src/src/context/processing.rs` lines 778 to 780. -/
def skipKeys : List String :=
  ["@base", "@direction", "@import", "@language", "@propagate", "@protected",
   "@version", "@vocab"]

/-- From the term-definition loop at `src/src/context/processing.rs`
lines 775 to 797: every non-reserved key of the context definition is
defined in declared order, threading the active context and the
`defined` map. -/
def defineLoop (localCtx : List (String × JsonV)) (protectedDefault : Bool)
    (opts : Options) :
    List (String × JsonV) → ActiveCtx → DefinedMap → Except Err ActiveCtx
  | [], ctx, _ => .ok ctx
  | e :: rest, ctx, defined =>
    if skipKeys.contains e.1 then
      defineLoop localCtx protectedDefault opts rest ctx defined
    else
      match simpleDefine ctx localCtx protectedDefault opts e.1 defined with
      | .error err => .error err
      | .ok r => defineLoop localCtx protectedDefault opts rest r.1 r.2

/-- From step 2 of `process_context` (lines 402 to 417): when the local
context is an object with an `@propagate` entry, the entry overrides the
propagate option; a non-boolean value or 1.0 mode fails. -/
def propagateOpt (lc : LocalCtx) (opts : Options) : Except Err Options :=
  match lc with
  | .single (.obj entries) =>
    match aget entries "@propagate" with
    | Option.none => .ok opts
    | some v =>
      if opts.processingMode == .jsonLd1_0 then .error .invalidContextEntry
      else
        match v with
        | .bool b => .ok ⟨opts.processingMode, opts.overrideProtected, b⟩
        | _ => .error .invalidPropagateValue
  | _ => .ok opts

/-- From step 3 of `process_context` (lines 419 to 423): when propagate
is false and the cloned result has no previous context, the previous
context is set to the active context. -/
def applyPrevious (active : ActiveCtx) (opts : Options) : ActiveCtx :=
  if !opts.propagate && (active.previous).isNone then
    active.setPrevious (some active)
  else active

/-- From step 5.1 of `process_context` (lines 439 to 455): the result is
replaced by a freshly initialized active context carrying the original
base URL of the active context, keeping the prior result as previous
context when propagate is false. -/
def resetCtx (originalActive result : ActiveCtx) (opts : Options) : ActiveCtx :=
  let fresh := ActiveCtx.new originalActive.originalBase
  if !opts.propagate then fresh.setPrevious (some result) else fresh

/-- The remote-document loader, modelled as a finite map from IRIs to the
extracted `@context` of the document (`load_context`); the final URL
after redirects is the request IRI itself. -/
abbrev Loader : Type := List (String × LocalCtx)

/-- The item loop of `process_context` (step 5, lines 428 to 806),
parameterized by the dereference behavior of context references. The
remote-contexts stack is threaded through the loop, so a pushed IRI
stays visible to the remaining items, as in the source; a reference
whose IRI is already on the stack is skipped (`ProcessingStack::push`
returning false leaves the `if` body unentered, lines 494 to 522). -/
def processList (derefFn : String → ActiveCtx → List String → Option (Except Err ActiveCtx))
    (originalActive : ActiveCtx) :
    List CtxItem → ActiveCtx → List String → Option String → Options →
    Option (Except Err ActiveCtx)
  | [], result, _, _, _ => some (.ok result)
  | .null :: rest, result, stack, baseUrl, opts =>
    if !opts.overrideProtected && hasProtectedItems result then
      some (.error .invalidContextNullification)
    else
      processList derefFn originalActive rest (resetCtx originalActive result opts)
        stack baseUrl opts
  | .str s :: rest, result, stack, baseUrl, opts =>
    match resolveIri s baseUrl with
    | Option.none => some (.error .loadingDocumentFailed)
    | some iri =>
      if stack.contains iri then
        processList derefFn originalActive rest result stack baseUrl opts
      else
        match derefFn iri result (iri :: stack) with
        | Option.none => Option.none
        | some (.error e) => some (.error e)
        | some (.ok r) =>
          processList derefFn originalActive rest r (iri :: stack) baseUrl opts
  | .obj entries :: rest, result, stack, baseUrl, opts =>
    let protectedDefault :=
      match aget entries "@protected" with
      | some (.bool b) => b
      | _ => false
    match defineLoop entries protectedDefault opts entries result [] with
    | .error e => some (.error e)
    | .ok r => processList derefFn originalActive rest r stack baseUrl opts

/-- The dereference of a remote context reference (the body of step 5.2,
lines 494 to 522): load the context behind the IRI and recursively
process it against the current result with override protected false and
propagate true, the document URL as the base URL and the pushed stack.
The fuel bounds the dereference depth; `Option.none` means it ran
out. -/
def derefFuel (loader : Loader) (mode : ProcessingMode) :
    Nat → String → ActiveCtx → List String → Option (Except Err ActiveCtx)
  | 0, iri, _, _ =>
    match aget loader iri with
    | Option.none => some (.error .loadingRemoteContextFailed)
    | some _ => Option.none
  | fuel + 1, iri, result, stack =>
    match aget loader iri with
    | Option.none => some (.error .loadingRemoteContextFailed)
    | some loadedCtx =>
      match propagateOpt loadedCtx ⟨mode, false, true⟩ with
      | .error e => some (.error e)
      | .ok opts2 =>
        let r0 := applyPrevious result opts2
        processList (fun i r st => derefFuel loader mode fuel i r st) result
          (asArray loadedCtx) r0 stack (some iri) opts2
termination_by structural fuel => fuel

/-- From `process_context` at `src/src/context/processing.rs` lines 373
to 811: steps 2 to 4 followed by the item loop, with dereferences
served by `derefFuel`. -/
def processContext (fuel : Nat) (loader : Loader) (active : ActiveCtx)
    (localCtx : LocalCtx) (stack : List String) (baseUrl : Option String)
    (opts : Options) : Option (Except Err ActiveCtx) :=
  match propagateOpt localCtx opts with
  | .error e => some (.error e)
  | .ok opts2 =>
    let result := applyPrevious active opts2
    processList (fun i r st => derefFuel loader opts2.processingMode fuel i r st)
      active (asArray localCtx) result stack baseUrl opts2

/-- The IRIs the loader can serve. -/
def loaderDomain (loader : Loader) : List String :=
  loader.map fun e => e.1

/-- How many loadable IRIs are not yet on the stack: the bound on the
dereference depth. -/
def newIris (loader : Loader) (stack : List String) : Nat :=
  ((loaderDomain loader).toFinset \ stack.toFinset).card

/-- Whether a result is anything but the context overflow error. -/
def exceptNotOverflow {α : Type} : Except Err α → Bool
  | .error .contextOverflow => false
  | _ => true

/-- Whether an optional result is anything but the context overflow
error. -/
def optNotOverflow : Option (Except Err ActiveCtx) → Bool
  | some r => exceptNotOverflow r
  | Option.none => true

/-! ## Concrete inputs used by the claim theorems -/

/-- Sample processing options: JSON-LD 1.1 mode, override protected
false, propagate true (the defaults). -/
def defaultOpts : Options :=
  ⟨.jsonLd1_1, false, true⟩

/-- A sample active context with a base URL and no definitions. -/
def sampleCtx : ActiveCtx :=
  .mk (some "http://b/") [] Option.none

/-- A loader serving one context that references itself. -/
def selfLoader : Loader :=
  [("i:a", .single (.str "i:a"))]

/-- The IRI of the k-th context of the dereference chain. -/
def chainName (k : Nat) : String :=
  ⟨'i' :: ':' :: List.replicate k 'a'⟩

/-- A loader serving a chain of 34 distinct contexts, each referencing
the next one and the last one empty. -/
def chainLoader : Loader :=
  ((List.range 33).map fun k =>
    (chainName k, LocalCtx.single (.str (chainName (k + 1))))) ++
  [(chainName 33, .array [])]

/-- A sample imported context object. -/
def importedSample : List (String × Nat) :=
  [("a", 1), ("k", 2)]

/-- A sample importing context object sharing the key `k`. -/
def importingSample : List (String × Nat) :=
  [("k", 3), ("b", 4)]

/-- A sample active context holding a protected definition for the term
`t`. -/
def protCtx : ActiveCtx :=
  .mk (some "http://b/") [("t", mkSimpleDef (some "i:x") true)] Option.none

/-- A sample vocabulary recognizing the single IRI `i:a`. -/
def boolFromIri : String → Option Bool :=
  fun s => if s == "i:a" then some true else Option.none

/-- The IRI of each identifier of the sample vocabulary. -/
def boolAsIri : Bool → String :=
  fun b => if b then "i:a" else "i:b"

/-! ## Helper lemmas -/

/-- A successful association-list lookup puts the key among the keys. -/
theorem aget_mem_fst {V : Type} {l : List (String × V)} {k : String} {v : V}
    (h : aget l k = some v) : k ∈ l.map Prod.fst := by
  unfold aget at h
  cases hf : l.find? fun e => e.1 == k with
  | none => rw [hf] at h; simp at h
  | some e =>
    have hm := List.mem_of_find?_eq_some hf
    have hp := List.find?_some hf
    have : e.1 = k := by simpa using hp
    exact this ▸ List.mem_map_of_mem Prod.fst hm

/-- Growing the stack cannot increase the number of fresh loadable IRIs. -/
theorem newIris_le_cons (loader : Loader) (x : String) (st : List String) :
    newIris loader (x :: st) ≤ newIris loader st := by
  apply Finset.card_le_card
  apply Finset.sdiff_subset_sdiff (le_refl _)
  intro a ha
  simp only [List.mem_toFinset] at ha ⊢
  exact List.mem_cons_of_mem x ha

/-- Pushing a loadable IRI that is not yet on the stack strictly shrinks
the number of fresh loadable IRIs. -/
theorem newIris_lt_of_fresh {loader : Loader} {iri : String} {st : List String}
    {c : LocalCtx} (hl : aget loader iri = some c)
    (hst : st.contains iri = false) :
    newIris loader (iri :: st) < newIris loader st := by
  have hdom : iri ∈ (loaderDomain loader).toFinset := by
    rw [List.mem_toFinset]
    exact aget_mem_fst hl
  have hnst : iri ∉ st.toFinset := by
    rw [List.mem_toFinset]
    intro hmem
    have : st.contains iri = true := List.elem_eq_true_of_mem hmem
    rw [this] at hst
    exact absurd hst (by simp)
  apply Finset.card_lt_card
  constructor
  · apply Finset.sdiff_subset_sdiff (le_refl _)
    intro a ha
    simp only [List.mem_toFinset] at ha ⊢
    exact List.mem_cons_of_mem iri ha
  · intro hsub
    have h1 : iri ∈ (loaderDomain loader).toFinset \ st.toFinset :=
      Finset.mem_sdiff.mpr ⟨hdom, hnst⟩
    have h2 := hsub h1
    rw [Finset.mem_sdiff] at h2
    exact h2.2 (by simp)

/-- With fuel at least the number of fresh loadable IRIs, the item loop
never runs out of fuel. -/
theorem processList_ne_none (loader : Loader) (mode : ProcessingMode) :
    ∀ (fuel : Nat) (items : List CtxItem) (oa r : ActiveCtx) (st : List String)
      (b : Option String) (o : Options),
      newIris loader st ≤ fuel →
      processList (fun i r2 st2 => derefFuel loader mode fuel i r2 st2)
        oa items r st b o ≠ Option.none := by
  intro fuel
  induction fuel using Nat.strong_induction_on with
  | _ fuel IH =>
  intro items
  induction items with
  | nil => intro oa r st b o _; simp [processList]
  | cons item rest IHrest =>
    intro oa r st b o hle
    match item with
    | .null =>
      simp only [processList]
      split
      · simp
      · exact IHrest oa _ st b o hle
    | .str s =>
      simp only [processList]
      cases hres : resolveIri s b with
      | none => simp
      | some iri =>
        simp only []
        by_cases hc : st.contains iri = true
        · simp only [hc, if_true]
          exact IHrest oa r st b o hle
        · rw [Bool.not_eq_true] at hc
          simp only [hc, Bool.false_eq_true, if_false]
          cases hd : derefFuel loader mode fuel iri r (iri :: st) with
          | none =>
            exfalso
            cases hl : aget loader iri with
            | none =>
              cases fuel with
              | zero => rw [derefFuel] at hd; simp [hl] at hd
              | succ n => rw [derefFuel] at hd; simp [hl] at hd
            | some loadedCtx =>
              have hlt : newIris loader (iri :: st) < newIris loader st :=
                newIris_lt_of_fresh hl hc
              cases fuel with
              | zero => omega
              | succ n =>
                rw [derefFuel] at hd
                simp only [hl] at hd
                cases hp : propagateOpt loadedCtx ⟨mode, false, true⟩ with
                | error e => simp [hp] at hd
                | ok opts2 =>
                  simp only [hp] at hd
                  exact IH n (Nat.lt_succ_self n) (asArray loadedCtx) r
                    (applyPrevious r opts2) (iri :: st) (some iri) opts2
                    (by omega) hd
          | some res =>
            cases res with
            | error e => simp
            | ok r2 =>
              simp only []
              exact IHrest oa r2 (iri :: st) b o
                (le_trans (newIris_le_cons loader iri st) hle)
    | .obj entries =>
      simp only [processList]
      cases hdl : defineLoop entries
          (match aget entries "@protected" with
           | some (.bool b2) => b2
           | _ => false) o entries r [] with
      | error e => simp
      | ok r2 =>
        simp only []
        exact IHrest oa r2 st b o hle

/-- With fuel at least the number of fresh loadable IRIs, context
processing never runs out of fuel: no infinite loop of context
dereferences occurs. -/
theorem processContext_ne_none (fuel : Nat) (loader : Loader)
    (active : ActiveCtx) (localCtx : LocalCtx) (stack : List String)
    (baseUrl : Option String) (opts : Options)
    (h : newIris loader stack ≤ fuel) :
    processContext fuel loader active localCtx stack baseUrl opts ≠ Option.none := by
  unfold processContext
  cases hp : propagateOpt localCtx opts with
  | error e => simp
  | ok opts2 =>
    simp only []
    exact processList_ne_none loader opts2.processingMode fuel (asArray localCtx)
      active (applyPrevious active opts2) stack baseUrl opts2 h

/-- An error result is overflow-free exactly when the error differs from
the overflow code. -/
theorem exceptNotOverflow_error {α : Type} (e : Err) :
    exceptNotOverflow (α := α) (.error e) = true ↔ e ≠ .contextOverflow := by
  cases e <;> simp [exceptNotOverflow]

/-- The commit step never raises a context overflow. -/
theorem defineCommit_no_overflow (ctx : ActiveCtx) (term : String)
    (d : TermDefinition) (previous : Option TermDefinition) (ov : Bool)
    (defined : DefinedMap) :
    exceptNotOverflow (defineCommit ctx term d previous ov defined) = true := by
  unfold defineCommit
  split
  · match previous with
    | some prev =>
      by_cases hp : prev.protectedFlag = true <;>
        by_cases he : eqModProtected d prev = true <;>
        simp [hp, he, exceptNotOverflow]
    | Option.none => simp [exceptNotOverflow]
  · simp [exceptNotOverflow]

/-- IRI mapping expansion never raises a context overflow. -/
theorem expandIdValue_no_overflow (s : String) :
    exceptNotOverflow (expandIdValue s) = true := by
  unfold expandIdValue
  split
  · split <;> simp [exceptNotOverflow]
  · split <;> simp [exceptNotOverflow]

/-- Term definition creation never raises a context overflow. -/
theorem simpleDefine_no_overflow (ctx : ActiveCtx)
    (localCtx : List (String × JsonV)) (pd : Bool) (opts : Options)
    (term : String) (defined : DefinedMap) :
    exceptNotOverflow (simpleDefine ctx localCtx pd opts term defined) = true := by
  unfold simpleDefine
  cases aget defined term with
  | some b => cases b <;> simp [exceptNotOverflow]
  | none =>
    simp only []
    split
    · simp [exceptNotOverflow]
    · cases aget localCtx term with
      | none => simp [exceptNotOverflow]
      | some v =>
        simp only []
        split
        · simp [exceptNotOverflow]
        · split
          · simp [exceptNotOverflow]
          · split
            · simp [exceptNotOverflow]
            · cases v with
              | bool b => simp [exceptNotOverflow]
              | null => exact defineCommit_no_overflow ..
              | str s =>
                simp only []
                split
                · split
                  · exact defineCommit_no_overflow ..
                  · simp [exceptNotOverflow]
                · split
                  · simp [exceptNotOverflow]
                  · cases he : expandIdValue s with
                    | error e =>
                      have h1 := expandIdValue_no_overflow s
                      rw [he] at h1
                      exact (exceptNotOverflow_error e).mpr
                        ((exceptNotOverflow_error e).mp h1)
                    | ok iri => exact defineCommit_no_overflow ..

/-- The term definition loop never raises a context overflow. -/
theorem defineLoop_no_overflow (localCtx : List (String × JsonV)) (pd : Bool)
    (opts : Options) :
    ∀ (entries : List (String × JsonV)) (ctx : ActiveCtx) (defined : DefinedMap),
      exceptNotOverflow (defineLoop localCtx pd opts entries ctx defined) = true := by
  intro entries
  induction entries with
  | nil => intro ctx defined; simp [defineLoop, exceptNotOverflow]
  | cons e rest IH =>
    intro ctx defined
    rw [defineLoop]
    split
    · exact IH ctx defined
    · cases hs : simpleDefine ctx localCtx pd opts e.1 defined with
      | error err =>
        have h1 := simpleDefine_no_overflow ctx localCtx pd opts e.1 defined
        rw [hs] at h1
        exact (exceptNotOverflow_error err).mpr ((exceptNotOverflow_error err).mp h1)
      | ok r => exact IH r.1 r.2

/-- Reading the propagate override never raises a context overflow. -/
theorem propagateOpt_no_overflow (lc : LocalCtx) (opts : Options) :
    exceptNotOverflow (propagateOpt lc opts) = true := by
  unfold propagateOpt
  split
  · split
    · simp [exceptNotOverflow]
    · split
      · simp [exceptNotOverflow]
      · split <;> simp [exceptNotOverflow]
  · simp [exceptNotOverflow]

/-- The item loop never raises a context overflow when the dereference
behavior never does. -/
theorem processList_no_overflow
    (derefFn : String → ActiveCtx → List String → Option (Except Err ActiveCtx))
    (hderef : ∀ i r st, optNotOverflow (derefFn i r st) = true) :
    ∀ (items : List CtxItem) (oa r : ActiveCtx) (st : List String)
      (b : Option String) (o : Options),
      optNotOverflow (processList derefFn oa items r st b o) = true := by
  intro items
  induction items with
  | nil => intro oa r st b o; simp [processList, optNotOverflow, exceptNotOverflow]
  | cons item rest IH =>
    intro oa r st b o
    match item with
    | .null =>
      simp only [processList]
      split
      · simp [optNotOverflow, exceptNotOverflow]
      · exact IH oa _ st b o
    | .str s =>
      simp only [processList]
      cases resolveIri s b with
      | none => simp [optNotOverflow, exceptNotOverflow]
      | some iri =>
        simp only []
        split
        · exact IH oa r st b o
        · cases hd : derefFn iri r (iri :: st) with
          | none => simp [optNotOverflow]
          | some res =>
            cases res with
            | error e =>
              have := hderef iri r (iri :: st)
              rw [hd] at this
              simpa [optNotOverflow, exceptNotOverflow] using this
            | ok r2 => exact IH oa r2 (iri :: st) b o
    | .obj entries =>
      simp only [processList]
      cases hdl : defineLoop entries
          (match aget entries "@protected" with
           | some (.bool b2) => b2
           | _ => false) o entries r [] with
      | error e =>
        have := defineLoop_no_overflow entries
          (match aget entries "@protected" with
           | some (.bool b2) => b2
           | _ => false) o entries r []
        rw [hdl] at this
        simpa [optNotOverflow, exceptNotOverflow] using this
      | ok r2 => exact IH oa r2 st b o

/-- Dereferencing never raises a context overflow. -/
theorem derefFuel_no_overflow (loader : Loader) (mode : ProcessingMode) :
    ∀ (fuel : Nat) (iri : String) (r : ActiveCtx) (st : List String),
      optNotOverflow (derefFuel loader mode fuel iri r st) = true := by
  intro fuel
  induction fuel with
  | zero =>
    intro iri r st
    rw [derefFuel]
    cases aget loader iri <;> simp [optNotOverflow, exceptNotOverflow]
  | succ n IH =>
    intro iri r st
    rw [derefFuel]
    cases aget loader iri with
    | none => simp [optNotOverflow, exceptNotOverflow]
    | some loadedCtx =>
      simp only []
      cases hp : propagateOpt loadedCtx ⟨mode, false, true⟩ with
      | error e =>
        have h1 := propagateOpt_no_overflow loadedCtx ⟨mode, false, true⟩
        rw [hp] at h1
        simp only [optNotOverflow]
        exact (exceptNotOverflow_error e).mpr ((exceptNotOverflow_error e).mp h1)
      | ok opts2 =>
        simp only []
        exact processList_no_overflow _ (fun i r2 st2 => IH i r2 st2)
          (asArray loadedCtx) r (applyPrevious r opts2) st (some iri) opts2

/-- Context processing never raises a context overflow. -/
theorem processContext_no_overflow (fuel : Nat) (loader : Loader)
    (active : ActiveCtx) (localCtx : LocalCtx) (stack : List String)
    (baseUrl : Option String) (opts : Options) :
    optNotOverflow (processContext fuel loader active localCtx stack baseUrl opts) = true := by
  unfold processContext
  cases hp : propagateOpt localCtx opts with
  | error e =>
    have h1 := propagateOpt_no_overflow localCtx opts
    rw [hp] at h1
    simp only [optNotOverflow]
    exact (exceptNotOverflow_error e).mpr ((exceptNotOverflow_error e).mp h1)
  | ok opts2 =>
    simp only []
    exact processList_no_overflow _
      (fun i r2 st2 => derefFuel_no_overflow loader opts2.processingMode fuel i r2 st2)
      (asArray localCtx) active (applyPrevious active opts2) stack baseUrl opts2

/-- Key containment agrees with membership among the mapped keys. -/
theorem containsKey_iff {V : Type} (o : List (String × V)) (k : String) :
    containsKey o k = true ↔ k ∈ o.map Prod.fst := by
  unfold containsKey
  rw [List.any_eq_true]
  constructor
  · rintro ⟨e, he, hbe⟩
    have he1 : e.1 = k := by simpa using hbe
    exact he1 ▸ List.mem_map_of_mem Prod.fst he
  · intro hk
    rcases List.mem_map.mp hk with ⟨e, he, hek⟩
    exact ⟨e, he, by simp [hek]⟩

/-- A successful lookup means the key is contained. -/
theorem containsKey_of_aget {V : Type} {o : List (String × V)} {k : String}
    {v : V} (h : aget o k = some v) : containsKey o k = true :=
  (containsKey_iff o k).mpr (aget_mem_fst h)

/-- The merged iteration of exactly two objects: the entries of the first,
minus the keys the second also holds, followed by the entries of the
second. -/
theorem mergedIter_pair {V : Type} (a b : List (String × V)) :
    mergedIter [a, b] = (a.filter fun kv => !(containsKey b kv.1)) ++ b := by
  show (if ([a, b] : List _).length ≤ 1 then _ else _) = _
  rw [if_neg (by simp)]
  simp only [List.enum, List.enumFrom, containsKeyAny, List.drop, List.any_cons,
    List.any_nil, List.map_cons, List.map_nil, List.flatten]
  simp [List.filter_true]

/-- If an equivalent object is already associated with the property,
`insert_unique` leaves the whole multimap unchanged. -/
theorem insertUnique_of_equiv_present :
    ∀ (p : Props) (prop : String) (v : Obj),
      ((Props.get p prop).any fun w => w.equivalent v) = true →
      Props.insertUnique p prop v = p := by
  intro p
  induction p with
  | nil => intro prop v h; simp [Props.get, aget] at h
  | cons e rest IH =>
    intro prop v h
    by_cases hek : (e.1 == prop) = true
    · have hget : Props.get (e :: rest) prop = e.2 := by
        simp [Props.get, aget, List.find?, hek]
      rw [hget] at h
      have hall : (e.2.all fun w => !(w.equivalent v)) = false := by
        rw [List.all_eq_not_any_not]
        simp only [Bool.not_not]
        simp [h]
      have hck : containsKey (e :: rest) prop = true := by
        simp [containsKey, hek]
      unfold Props.insertUnique
      rw [if_pos hck]
      unfold updateFirst
      rw [if_pos hek]
      simp [hall]
    · have hget : Props.get (e :: rest) prop = Props.get rest prop := by
        simp [Props.get, aget, List.find?, hek]
      rw [hget] at h
      have hsome : ∃ l, aget rest prop = some l := by
        cases ha : aget rest prop with
        | none => rw [Props.get, ha] at h; simp at h
        | some l => exact ⟨l, rfl⟩
      rcases hsome with ⟨l, hl⟩
      have hck : containsKey rest prop = true := containsKey_of_aget hl
      have hck2 : containsKey (e :: rest) prop = true := by
        simp [containsKey] at hck ⊢
        exact Or.inr hck
      have hrest := IH prop v h
      unfold Props.insertUnique at hrest ⊢
      rw [if_pos hck] at hrest
      rw [if_pos hck2]
      unfold updateFirst
      rw [if_neg hek]
      rw [hrest]

/-- The commit step either fails or commits, and a commit sets the
`defined` entry of the term to true. -/
theorem defineCommit_cases (ctx : ActiveCtx) (term : String)
    (d : TermDefinition) (prev : Option TermDefinition) (ov : Bool)
    (defined : DefinedMap) :
    (∃ e, defineCommit ctx term d prev ov defined = .error e) ∨
    (∃ ctx2, defineCommit ctx term d prev ov defined
      = .ok (ctx2, insertd defined term true)) := by
  unfold defineCommit
  by_cases hov : (!ov) = true
  · rw [if_pos hov]
    cases prev with
    | none => right; exact ⟨_, rfl⟩
    | some p =>
      by_cases hp : p.protectedFlag = true
      · by_cases he : eqModProtected d p = true
        · right
          exact ⟨ctx.setDef term (some (d.setProtected true)), by simp [hp, he]⟩
        · left
          exact ⟨Err.protectedTermRedefinition, by simp [hp, he]⟩
      · right
        exact ⟨ctx.setDef term (some d), by simp [hp]⟩
  · rw [if_neg hov]
    right; exact ⟨_, rfl⟩

/-- Equality modulo protected is reflexive. -/
theorem eqModProtected_refl (d : TermDefinition) : eqModProtected d d = true := by
  simp [eqModProtected]

/-- Replacing the protected flag does not affect equality modulo
protected. -/
theorem eqModProtected_setProtected (d p : TermDefinition) (b : Bool) :
    eqModProtected (d.setProtected b) p = eqModProtected d p := by
  simp [eqModProtected, TermDefinition.setProtected]

/-- Looking a key up after filtering it out and appending a fresh binding
finds the fresh binding. -/
theorem aget_filter_self_append {V : Type} (l : List (String × V)) (k : String)
    (v : V) :
    aget ((l.filter fun e => e.1 != k) ++ [(k, v)]) k = some v := by
  induction l with
  | nil => simp [aget, List.find?]
  | cons e rest IH =>
    by_cases he : (e.1 != k) = true
    · have hne : (e.1 == k) = false := by
        simpa [bne] using he
      rw [List.filter_cons, if_pos he]
      simp only [aget, List.cons_append, List.find?, hne]
      simpa [aget] using IH
    · rw [List.filter_cons, if_neg he]
      exact IH

/-- Looking a key up after filtering it out finds nothing. -/
theorem aget_filter_ne {V : Type} (l : List (String × V)) (k : String) :
    aget (l.filter fun e => e.1 != k) k = Option.none := by
  induction l with
  | nil => rfl
  | cons e rest IH =>
    by_cases he : (e.1 != k) = true
    · have hne : (e.1 == k) = false := by
        simpa [bne] using he
      rw [List.filter_cons, if_pos he]
      simp only [aget, List.find?, hne]
      simpa [aget] using IH
    · rw [List.filter_cons, if_neg he]
      exact IH

/-- Setting a definition makes it the one the context returns. -/
theorem getDef_setDef_self (c : ActiveCtx) (term : String) (d : TermDefinition) :
    (c.setDef term (some d)).getDef term = some d := by
  cases c with
  | mk b defs p => exact aget_filter_self_append defs term d

/-- Removing a definition leaves none for the term. -/
theorem getDef_setDef_none (c : ActiveCtx) (term : String) :
    (c.setDef term Option.none).getDef term = Option.none := by
  cases c with
  | mk b defs p => exact aget_filter_ne defs term

/-- A successful commit against a protected previous definition (override
protected false) installs a definition equal to the previous modulo
protected and carrying the protected flag. -/
theorem defineCommit_ok_protected {ctx1 : ActiveCtx} {term : String}
    {built prev : TermDefinition} {defined1 : DefinedMap} {ctx2 : ActiveCtx}
    {defined2 : DefinedMap} (hp : prev.protectedFlag = true)
    (hok : defineCommit ctx1 term built (some prev) false defined1
      = .ok (ctx2, defined2)) :
    ∃ d, ctx2.getDef term = some d ∧ eqModProtected d prev = true ∧
      d.protectedFlag = true := by
  unfold defineCommit at hok
  by_cases he : eqModProtected built prev = true
  · simp only [Bool.not_false, if_true, hp, he] at hok
    simp only [if_true, Except.ok.injEq, Prod.mk.injEq] at hok
    refine ⟨built.setProtected true, ?_, ?_, rfl⟩
    · rw [← hok.1]
      exact getDef_setDef_self ctx1 term (built.setProtected true)
    · rw [eqModProtected_setProtected]
      exact he
  · exfalso
    rw [Bool.not_eq_true] at he
    simp [hp, he] at hok

/-- The sample vocabulary satisfies the round-trip agreement between its
two methods. -/
theorem boolVocab_agrees : ∀ i v, boolFromIri i = some v → boolAsIri v = i := by
  intro i v h
  unfold boolFromIri at h
  by_cases hi : (i == "i:a") = true
  · rw [if_pos hi] at h
    have hv : v = true := by
      injection h with h2
      exact h2.symm
    have hieq : i = "i:a" := eq_of_beq hi
    rw [hv, hieq]
    rfl
  · rw [if_neg hi] at h
    exact absurd h (by simp)

/-! ## Claims -/

/-- Claim C1 (code bug): with an active-property type mapping of `@id`
and the string literal value `http://example/bob`, value expansion does
not return a node object whose id is the IRI-expanded value: it falls
into the default branch and returns a plain value object, because the
guard `value.is_string()` tests for `Number` instead of `String`
(`GivenLiteralValue::is_string`, literal.rs lines 29 to 31). A number
with an `@id` type mapping instead passes the guard and panics in
`as_str().unwrap()`. -/
theorem expand_literal_id_string_yields_value_object :
    expand_literal (some .id) Option.none Option.none Option.none Option.none
      (.given (.str "http://example/bob"))
      = .valueLiteral (.str "http://example/bob") Option.none ∧
    (expand_literal (some .id) Option.none Option.none Option.none Option.none
      (.given (.str "http://example/bob"))).isNode = false ∧
    (GivenLiteralValue.str "http://example/bob").isString = false ∧
    expand_literal (some .id) Option.none Option.none Option.none Option.none
      (.given (.number "5")) = .panicked :=
  ⟨rfl, rfl, rfl, rfl⟩

/-- Claim C2 (code bug): `Container::with` accepts a container type
exactly when the union of the element set with the new type is a legal
combination (checked over all pairs), but adding `index` to
`{graph, set}` produces `GraphIdSet`, whose element set `{graph, id,
set}` does not contain `index` — while adding `set` to `{graph, index}`
correctly produces `GraphIndexSet`, so `Container::from` maps two
permutations of the same set to different containers. -/
theorem container_graphset_with_index_slip :
    Container.graphSet.with' .index = some Container.graphIdSet ∧
    Container.graphSet.add .index = (true, Container.graphIdSet) ∧
    Container.graphIdSet.mem .index = false ∧
    Container.graphIndex.with' .set = some Container.graphIndexSet ∧
    Container.from' [.graph, .set, .index] .none = .ok Container.graphIdSet ∧
    Container.from' [.index, .set, .graph] .none = .ok Container.graphIndexSet ∧
    (allContainers.all fun c => allContainerTypes.all fun t =>
      (c.with' t).isSome == isLegalCombo (t :: c.asSlice)) = true :=
  ⟨rfl, rfl, by decide, rfl, rfl, rfl, by decide⟩

/-- Claim C3 (counterexample): processing a context whose item references
an IRI already on the remote-contexts stack succeeds by silently
skipping the reference instead of failing with
`LoadingRemoteContextFailed`: `ProcessingStack::push` returns false on a
cycle and the dereference block is simply not entered (processing.rs
lines 494 to 522, an `if` with no else). -/
theorem process_context_cycle_silently_skipped :
    processContext 3 selfLoader sampleCtx (.single (.str "i:a")) []
      Option.none defaultOpts = some (.ok sampleCtx) :=
  rfl

/-- Claim C3 (amended): when a string item resolves to an IRI already on
the remote-contexts stack, the context is skipped without dereferencing
and without error; and in every case no infinite loop of context
dereferences occurs: any fuel bounding the number of loadable IRIs not
yet on the stack suffices for processing to complete. -/
theorem process_context_cycle_skip_and_termination :
    (∀ (derefFn : String → ActiveCtx → List String → Option (Except Err ActiveCtx))
       (oa r : ActiveCtx) (s : String) (rest : List CtxItem) (st : List String)
       (b : Option String) (o : Options) (iri : String),
       resolveIri s b = some iri → st.contains iri = true →
       processList derefFn oa (.str s :: rest) r st b o
         = processList derefFn oa rest r st b o) ∧
    (∀ (fuel : Nat) (loader : Loader) (active : ActiveCtx) (lc : LocalCtx)
       (st : List String) (b : Option String) (o : Options),
       newIris loader st ≤ fuel →
       processContext fuel loader active lc st b o ≠ Option.none) := by
  constructor
  · intro derefFn oa r s rest st b o iri hres hc
    simp only [processList, hres, hc, if_true]
  · intro fuel loader active lc st b o h
    exact processContext_ne_none fuel loader active lc st b o h

/-- Claim C4 (code bug): no processor-defined depth bound exists:
`ProcessingStack::push` checks only for cycles, so a chain of 34
distinct remote contexts (more than the recommended minimum bound of 32)
dereferences successfully, and context processing can never produce the
`ContextOverflow` error at all. -/
theorem process_context_no_overflow_check :
    processContext 40 chainLoader sampleCtx (.single (.str (chainName 0))) []
      Option.none defaultOpts = some (.ok sampleCtx) ∧
    (∀ (fuel : Nat) (loader : Loader) (active : ActiveCtx) (lc : LocalCtx)
       (st : List String) (b : Option String) (o : Options),
       optNotOverflow (processContext fuel loader active lc st b o) = true) := by
  constructor
  · rfl
  · intro fuel loader active lc st b o
    exact processContext_no_overflow fuel loader active lc st b o

/-- Claim C5 (counterexample): invoking `define` on the protected term
`t` with the definition `{"t": "@foo"}` — an `@id` value that has the
form of a keyword but is not one — removes the previous protected
definition from the active context (processing.rs line 949) and then
returns successfully from the keyword-like early return (lines 1149 to
1156): the protected definition is silently deleted, with neither an
equal-modulo-protected commit carrying `protected = true` nor a
`ProtectedTermRedefinition` error. -/
theorem define_keyword_like_id_deletes_protected :
    simpleDefine protCtx [("t", JsonV.str "@foo")] false defaultOpts "t" []
      = .ok (.mk (some "http://b/") [] Option.none, [("t", false)]) ∧
    protCtx.getDef "t" = some (mkSimpleDef (some "i:x") true) ∧
    (mkSimpleDef (some "i:x") true).protectedFlag = true ∧
    ActiveCtx.getDef (.mk (some "http://b/") [] Option.none) "t" = Option.none :=
  ⟨rfl, rfl, rfl, rfl⟩

/-- Claim C5 (amended): for every call to `define` where a previous
definition for the term exists, is protected, and override protected is
false (and the definition value carries no `@reverse` entry, a path the
model does not contain): whenever the call returns successfully and the
term still has a definition afterwards, that definition equals the
previous on every field except the protected flag and carries
`protected = true`; committing a definition that differs modulo
protected fails with `ProtectedTermRedefinition`; but an `@id` value
with the form of a keyword makes `define` remove the previous protected
definition and return successfully, silently deleting the term. -/
theorem define_protected_previous_outcome (ctx : ActiveCtx)
    (localCtx : List (String × JsonV)) (pd : Bool) (opts : Options)
    (term : String) (defined : DefinedMap) (prev : TermDefinition)
    (hprev : ctx.getDef term = some prev)
    (hp : prev.protectedFlag = true)
    (hov : opts.overrideProtected = false) :
    (∀ (ctx2 : ActiveCtx) (defined2 : DefinedMap),
      simpleDefine ctx localCtx pd opts term defined = .ok (ctx2, defined2) →
      (∃ d, ctx2.getDef term = some d ∧ eqModProtected d prev = true ∧
        d.protectedFlag = true) ∨ ctx2.getDef term = Option.none) ∧
    (∀ (d : TermDefinition) (defined3 : DefinedMap),
      eqModProtected d prev = false →
      defineCommit (ctx.setDef term Option.none) term d (some prev) false defined3
        = .error .protectedTermRedefinition) := by
  constructor
  · intro ctx2 defined2 hok
    unfold simpleDefine at hok
    cases hd : aget defined term with
    | some b =>
      rw [hd] at hok
      cases b
      · simp at hok
      · simp only [Except.ok.injEq, Prod.mk.injEq] at hok
        left
        refine ⟨prev, ?_, eqModProtected_refl prev, hp⟩
        rw [← hok.1]
        exact hprev
    | none =>
      rw [hd] at hok
      simp only [] at hok
      by_cases h0 : (term == "") = true
      · rw [if_pos h0] at hok
        simp at hok
      · rw [if_neg h0] at hok
        cases hl : aget localCtx term with
        | none =>
          rw [hl] at hok
          simp only [Except.ok.injEq, Prod.mk.injEq] at hok
          left
          refine ⟨prev, ?_, eqModProtected_refl prev, hp⟩
          rw [← hok.1]
          exact hprev
        | some v =>
          rw [hl] at hok
          simp only [] at hok
          by_cases h1 : (term == "@type") = true
          · rw [if_pos h1] at hok
            simp at hok
          · rw [if_neg h1] at hok
            by_cases h2 : isKeyword term = true
            · rw [if_pos h2] at hok
              simp at hok
            · rw [if_neg h2] at hok
              by_cases h3 : isKeywordLike term = true
              · rw [if_pos h3] at hok
                simp only [Except.ok.injEq, Prod.mk.injEq] at hok
                left
                refine ⟨prev, ?_, eqModProtected_refl prev, hp⟩
                rw [← hok.1]
                exact hprev
              · rw [if_neg h3] at hok
                rw [hprev, hov] at hok
                cases v with
                | bool b2 => simp at hok
                | null => exact Or.inl (defineCommit_ok_protected hp hok)
                | str s =>
                  simp only [] at hok
                  by_cases h4 : (s == term) = true
                  · rw [if_pos h4] at hok
                    by_cases h5 : containsAfterFirst term ':' = true
                    · rw [if_pos h5] at hok
                      exact Or.inl (defineCommit_ok_protected hp hok)
                    · rw [if_neg h5] at hok
                      simp at hok
                  · rw [if_neg h4] at hok
                    by_cases h6 : (isKeywordLike s && !isKeyword s) = true
                    · rw [if_pos h6] at hok
                      simp only [Except.ok.injEq, Prod.mk.injEq] at hok
                      right
                      rw [← hok.1]
                      exact getDef_setDef_none ctx term
                    · rw [if_neg h6] at hok
                      cases he : expandIdValue s with
                      | error e => rw [he] at hok; simp at hok
                      | ok iri =>
                        rw [he] at hok
                        simp only [] at hok
                        exact Or.inl (defineCommit_ok_protected hp hok)
  · intro d defined3 hne
    unfold defineCommit
    simp [hp, hne]

/-- Witness for claim C5 at a concrete input: redefining the protected
term `t` with the same IRI commits a definition equal to the previous
modulo protected and carrying the protected flag. -/
theorem define_protected_previous_outcome_witness :
    (∃ d, (ActiveCtx.mk (some "http://b/")
        [("t", mkSimpleDef (some "i:x") true)] Option.none).getDef "t" = some d ∧
      eqModProtected d (mkSimpleDef (some "i:x") true) = true ∧
      d.protectedFlag = true) ∨
    (ActiveCtx.mk (some "http://b/")
        [("t", mkSimpleDef (some "i:x") true)] Option.none).getDef "t"
      = Option.none :=
  (define_protected_previous_outcome protCtx [("t", JsonV.str "i:x")] false
      defaultOpts "t" [] (mkSimpleDef (some "i:x") true) rfl rfl rfl).1
    (ActiveCtx.mk (some "http://b/")
      [("t", mkSimpleDef (some "i:x") true)] Option.none)
    [("t", true)] rfl

/-- Claim C6: a null context item fails with
`InvalidContextNullification` when override protected is false and the
result holds a protected term definition, and otherwise replaces the
result with a freshly initialized active context carrying only the
original base URL of the active context, keeping the prior result as
previous context when propagate is false; in particular, processing
`[{"name": "http://a/"}, null]` yields an active context with no term
`name`. -/
theorem process_context_null_reset :
    (∀ (derefFn : String → ActiveCtx → List String → Option (Except Err ActiveCtx))
       (oa : ActiveCtx) (rest : List CtxItem) (r : ActiveCtx)
       (st : List String) (b : Option String) (o : Options),
       processList derefFn oa (.null :: rest) r st b o =
         if !o.overrideProtected && hasProtectedItems r then
           some (.error .invalidContextNullification)
         else processList derefFn oa rest (resetCtx oa r o) st b o) ∧
    processContext 1 [] sampleCtx
      (.array [.obj [("name", JsonV.str "http://a/")], .null]) []
      Option.none defaultOpts
      = some (.ok (.mk (some "http://b/") [] Option.none)) ∧
    ActiveCtx.getDef (.mk (some "http://b/") [] Option.none) "name" = Option.none := by
  refine ⟨?_, rfl, rfl⟩
  intro derefFn oa rest r st b o
  rfl

/-- Claim C7 (counterexample): invoking `define` on a term with no entry
in the `defined` map and absent from the local context returns
successfully and leaves the `defined` map untouched: nothing records
`defined[term] = false`. -/
theorem define_absent_term_defined_untouched :
    simpleDefine sampleCtx [] false defaultOpts "x" [] = .ok (sampleCtx, []) ∧
    aget ([] : DefinedMap) "x" = Option.none :=
  ⟨rfl, rfl⟩

/-- Claim C7 (amended): the `defined` map protocol of `define`: an entry
true returns immediately with the context and the map unchanged; false
fails with `CyclicIriMapping`; with no entry, an empty term fails with
`InvalidTermDefinition`, a term absent from the local context returns
successfully with no changes, and a present term first records
`defined[term] = false` and then either fails, or returns early keeping
the false record (keyword-like terms and values), or commits and sets
`defined[term] = true` — so each term is created at most once per
processing invocation. -/
theorem define_defined_map_protocol (ctx : ActiveCtx)
    (localCtx : List (String × JsonV)) (pd : Bool) (opts : Options)
    (term : String) (defined : DefinedMap) :
    match aget defined term with
    | some true => simpleDefine ctx localCtx pd opts term defined = .ok (ctx, defined)
    | some false => simpleDefine ctx localCtx pd opts term defined = .error .cyclicIriMapping
    | Option.none =>
      if term = "" then
        simpleDefine ctx localCtx pd opts term defined = .error .invalidTermDefinition
      else
        match aget localCtx term with
        | Option.none => simpleDefine ctx localCtx pd opts term defined = .ok (ctx, defined)
        | some _ =>
          (∃ e, simpleDefine ctx localCtx pd opts term defined = .error e) ∨
          (∃ ctx2, simpleDefine ctx localCtx pd opts term defined
            = .ok (ctx2, insertd (insertd defined term false) term true)) ∨
          (∃ ctx2, simpleDefine ctx localCtx pd opts term defined
            = .ok (ctx2, insertd defined term false)) := by
  cases hd : aget defined term with
  | some b =>
    cases b
    · simp [simpleDefine, hd]
    · simp [simpleDefine, hd]
  | none =>
    by_cases ht : term = ""
    · subst ht
      rw [if_pos rfl]
      simp [simpleDefine, hd]
    · simp only [if_neg ht]
      cases hl : aget localCtx term with
      | none =>
        simp only []
        unfold simpleDefine
        rw [hd]
        simp only []
        rw [if_neg (by simpa using ht)]
        rw [hl]
      | some v =>
        simp only []
        unfold simpleDefine
        rw [hd]
        simp only []
        rw [if_neg (by simpa using ht)]
        rw [hl]
        simp only []
        by_cases h1 : (term == "@type") = true
        · rw [if_pos h1]; exact Or.inl ⟨_, rfl⟩
        · rw [if_neg h1]
          by_cases h2 : isKeyword term = true
          · rw [if_pos h2]; exact Or.inl ⟨_, rfl⟩
          · rw [if_neg h2]
            by_cases h3 : isKeywordLike term = true
            · rw [if_pos h3]; exact Or.inr (Or.inr ⟨ctx, rfl⟩)
            · rw [if_neg h3]
              cases v with
              | bool b2 => exact Or.inl ⟨_, rfl⟩
              | null =>
                rcases defineCommit_cases (ctx.setDef term Option.none) term
                    (mkSimpleDef Option.none pd) (ctx.getDef term)
                    opts.overrideProtected (insertd defined term false) with
                  ⟨e, he⟩ | ⟨ctx2, hc⟩
                · exact Or.inl ⟨e, he⟩
                · exact Or.inr (Or.inl ⟨ctx2, hc⟩)
              | str s =>
                simp only []
                by_cases h4 : (s == term) = true
                · rw [if_pos h4]
                  by_cases h5 : containsAfterFirst term ':' = true
                  · rw [if_pos h5]
                    rcases defineCommit_cases (ctx.setDef term Option.none) term
                        (mkSimpleDef (some term) pd) (ctx.getDef term)
                        opts.overrideProtected (insertd defined term false) with
                      ⟨e, he⟩ | ⟨ctx2, hc⟩
                    · exact Or.inl ⟨e, he⟩
                    · exact Or.inr (Or.inl ⟨ctx2, hc⟩)
                  · rw [if_neg h5]; exact Or.inl ⟨_, rfl⟩
                · rw [if_neg h4]
                  by_cases h6 : (isKeywordLike s && !isKeyword s) = true
                  · rw [if_pos h6]
                    exact Or.inr (Or.inr ⟨ctx.setDef term Option.none, rfl⟩)
                  · rw [if_neg h6]
                    cases he : expandIdValue s with
                    | error e => exact Or.inl ⟨e, rfl⟩
                    | ok iri =>
                      rcases defineCommit_cases (ctx.setDef term Option.none) term
                          (mkSimpleDef (some iri) pd) (ctx.getDef term)
                          opts.overrideProtected (insertd defined term false) with
                        ⟨e, he2⟩ | ⟨ctx2, hc⟩
                      · exact Or.inl ⟨e, he2⟩
                      · exact Or.inr (Or.inl ⟨ctx2, hc⟩)

/-- Claim C8: in a merged local context object built from an `@import`
(the imported object overlaid by the importing object), lookup returns
the importing value for every key present in both objects, and the
merged iteration visits each key at most once (the JSON objects merged
have unique keys). -/
theorem merged_local_context_shadowing {V : Type}
    (imported importing : List (String × V))
    (h1 : (imported.map Prod.fst).Nodup) (h2 : (importing.map Prod.fst).Nodup) :
    (∀ (k : String) (v1 v2 : V), aget imported k = some v1 →
      aget importing k = some v2 →
      lcoGet [imported, importing] k = some v2) ∧
    ((mergedIter [imported, importing]).map Prod.fst).Nodup := by
  constructor
  · intro k v1 v2 _ hb
    simp [lcoGet, List.findSome?_cons, hb]
  · rw [mergedIter_pair, List.map_append]
    rw [List.nodup_append]
    refine ⟨?_, h2, ?_⟩
    · exact h1.sublist (List.Sublist.map Prod.fst (List.filter_sublist imported))
    · intro k hk1 hk2
      rcases List.mem_map.mp hk1 with ⟨e, he, hek⟩
      have hp := List.of_mem_filter he
      have hcf : containsKey importing e.1 = false := by
        simp only [Bool.not_eq_true'] at hp
        exact hp
      rw [hek] at hcf
      exact absurd ((containsKey_iff importing k).mpr hk2)
        (by rw [hcf]; simp)

/-- Witness for claim C8 at concrete objects sharing the key `k`. -/
theorem merged_local_context_shadowing_witness :
    lcoGet [importedSample, importingSample] "k" = some 3 ∧
    ((mergedIter [importedSample, importingSample]).map Prod.fst).Nodup :=
  ⟨(merged_local_context_shadowing importedSample importingSample
      (by decide) (by decide)).1 "k" 2 3 rfl rfl,
   (merged_local_context_shadowing importedSample importingSample
      (by decide) (by decide)).2⟩

/-- Claim C9 (counterexample): `Properties::insert` does not deduplicate:
inserting the same object twice under the same property yields a
two-element multiset, so the collection associated with the property is
changed by the duplicate insertion. -/
theorem properties_insert_duplicates :
    Props.insert (Props.insert [] "p" ⟨1, Option.none, 0⟩) "p" ⟨1, Option.none, 0⟩
      = [("p", [⟨1, Option.none, 0⟩, ⟨1, Option.none, 0⟩])] ∧
    (Props.insert (Props.insert [] "p" ⟨1, Option.none, 0⟩) "p" ⟨1, Option.none, 0⟩
      == Props.insert [] "p" ⟨1, Option.none, 0⟩) = false := by
  constructor
  · rfl
  · decide

/-- Claim C9 (amended): `Properties::insert_unique` is idempotent on
duplicates: inserting an object under a property already associated with
an equivalent object — equivalence ignoring the `@index` wrapper and the
source metadata — leaves the multimap unchanged; the plain `insert`
appends unconditionally. -/
theorem properties_insert_unique_idempotent (p : Props) (prop : String)
    (v : Obj)
    (h : ((Props.get p prop).any fun w => w.equivalent v) = true) :
    Props.insertUnique p prop v = p :=
  insertUnique_of_equiv_present p prop v h

/-- Witness for claim C9 at a concrete input: the object differs in index
and metadata but is equivalent, and insertion leaves the map unchanged. -/
theorem properties_insert_unique_idempotent_witness :
    Props.insertUnique [("p", [⟨1, Option.none, 0⟩])] "p" ⟨1, some "i", 5⟩
      = [("p", [⟨1, Option.none, 0⟩])] :=
  properties_insert_unique_idempotent [("p", [⟨1, Option.none, 0⟩])] "p"
    ⟨1, some "i", 5⟩ (by decide)

/-- Claim C10: for a vocabulary whose `from_iri` and `as_iri` methods
agree, `Lexicon::from_iri` followed by `as_iri` is the identity on IRIs,
whether or not the IRI belongs to the vocabulary. -/
theorem lexicon_from_iri_as_iri_roundtrip {V : Type}
    (fromIriV : String → Option V) (asIriV : V → String)
    (h : ∀ i v, fromIriV i = some v → asIriV v = i) (i : String) :
    (Lexicon.fromIri fromIriV i).asIri asIriV = i := by
  unfold Lexicon.fromIri
  cases hf : fromIriV i with
  | none => rfl
  | some v =>
    simp only [Lexicon.asIri]
    exact h i v hf

/-- Witness for claim C10 at the sample vocabulary, on an IRI inside the
vocabulary and one outside it. -/
theorem lexicon_from_iri_as_iri_roundtrip_witness :
    (Lexicon.fromIri boolFromIri "i:a").asIri boolAsIri = "i:a" ∧
    (Lexicon.fromIri boolFromIri "i:zz").asIri boolAsIri = "i:zz" :=
  ⟨lexicon_from_iri_as_iri_roundtrip boolFromIri boolAsIri boolVocab_agrees "i:a",
   lexicon_from_iri_as_iri_roundtrip boolFromIri boolAsIri boolVocab_agrees "i:zz"⟩

end JsonLdSpec
